import Mathlib

/-!
# Verification of the freqgen frequency-matching optimizer

This file gives a shallow embedding of the freqgen repository: the CLI glue
code that is present in `src/freqgen/cli.py`, and the core analyzer/optimizer
operations (`k_mer_frequencies`, `codon_frequencies`, `generate`,
`amino_acid_seq`, the genetic operators and the convergence policy) which the
CLI imports from the `freqgen` package.  The core module itself is not part of
the visible sources, so those definitions are modelled from the specification
document, as indicated in their doc comments.  Sequences are Lean `String`s
over the nucleotide alphabet, frequencies are rationals.
-/

namespace Freqgen

/-- The standard genetic code (NCBI translation table 11, the default table of
the CLI): each of the 64 codons mapped to its amino-acid symbol, with `*` for
the three stop codons. -/
def standardTable : List (String × Char) :=
  [("TTT", 'F'), ("TTC", 'F'), ("TTA", 'L'), ("TTG", 'L'),
   ("TCT", 'S'), ("TCC", 'S'), ("TCA", 'S'), ("TCG", 'S'),
   ("TAT", 'Y'), ("TAC", 'Y'), ("TAA", '*'), ("TAG", '*'),
   ("TGT", 'C'), ("TGC", 'C'), ("TGA", '*'), ("TGG", 'W'),
   ("CTT", 'L'), ("CTC", 'L'), ("CTA", 'L'), ("CTG", 'L'),
   ("CCT", 'P'), ("CCC", 'P'), ("CCA", 'P'), ("CCG", 'P'),
   ("CAT", 'H'), ("CAC", 'H'), ("CAA", 'Q'), ("CAG", 'Q'),
   ("CGT", 'R'), ("CGC", 'R'), ("CGA", 'R'), ("CGG", 'R'),
   ("ATT", 'I'), ("ATC", 'I'), ("ATA", 'I'), ("ATG", 'M'),
   ("ACT", 'T'), ("ACC", 'T'), ("ACA", 'T'), ("ACG", 'T'),
   ("AAT", 'N'), ("AAC", 'N'), ("AAA", 'K'), ("AAG", 'K'),
   ("AGT", 'S'), ("AGC", 'S'), ("AGA", 'R'), ("AGG", 'R'),
   ("GTT", 'V'), ("GTC", 'V'), ("GTA", 'V'), ("GTG", 'V'),
   ("GCT", 'A'), ("GCC", 'A'), ("GCA", 'A'), ("GCG", 'A'),
   ("GAT", 'D'), ("GAC", 'D'), ("GAA", 'E'), ("GAG", 'E'),
   ("GGT", 'G'), ("GGC", 'G'), ("GGA", 'G'), ("GGG", 'G')]

/-- Amino acid encoded by a codon, `none` for a string that is not a codon. -/
def tableAA (c : String) : Option Char :=
  standardTable.lookup c

/-- The synonymous codons of an amino-acid symbol, in table order. -/
def synonyms (a : Char) : List String :=
  (standardTable.filter (fun p => p.2 == a)).map Prod.fst

/-- Split a character list into its consecutive codons (length-3 chunks);
any trailing chunk shorter than 3 is not a codon and is not produced. -/
def codonChunks : List Char → List (List Char)
  | a :: b :: c :: rest => [a, b, c] :: codonChunks rest
  | _ => []

/-- Translate a list of codons, failing on any string that is not a codon of
the table. -/
def translateCodons : List (List Char) → Option (List Char)
  | [] => some []
  | c :: rest =>
    match tableAA ⟨c⟩, translateCodons rest with
    | some a, some t => some (a :: t)
    | _, _ => none

/-- Translation of a DNA string under the standard table: defined only for
strings whose length is a multiple of 3 and all of whose codons are in the
table (Biopython raises a `TranslationError` otherwise). -/
def translateStr (s : String) : Option String :=
  if s.data.length % 3 = 0 then (translateCodons (codonChunks s.data)).map List.asString
  else none

/-- All sliding windows of width `k` (step 1, non-circular) of a list. -/
def windows (k : ℕ) (l : List Char) : List (List Char) :=
  (List.range (l.length + 1 - k)).map (fun i => (l.drop i).take k)

/-- Number of occurrences of the k-mer `w` in `s` (sliding window, step 1). -/
def kmerCount (s : String) (w : String) : ℕ :=
  (windows w.data.length s.data).count w.data

/-- Modelled from the spec (§4.1, `k_mer_frequencies` of the missing core
module): observed frequency of the k-mer `w` in a single sequence, the count
normalized by the total window count. -/
def kmerFreqOf (s : String) (w : String) : ℚ :=
  (kmerCount s w : ℚ) / ((windows w.data.length s.data).length : ℚ)

/-- Number of occurrences of `c` among the consecutive codons of `s`. -/
def codonCount (s : String) (c : String) : ℕ :=
  (codonChunks s.data).count c.data

/-- Modelled from the spec (§4.1, `codon_frequencies` of the missing core
module): observed frequency of the codon `c` among the consecutive codons. -/
def codonFreqOf (s : String) (c : String) : ℚ :=
  (codonCount s c : ℚ) / ((codonChunks s.data).length : ℚ)

/-- The four nucleotides in the order used by the CLI (`"ACGT"`). -/
def nucleotides : List Char := ['A', 'C', 'G', 'T']

/-- All k-mers over `ACGT` in lexicographic order (first symbol varies
slowest), as in `itertools.product("ACGT", repeat=k)`. -/
def allKmers : ℕ → List (List Char)
  | 0 => [[]]
  | n + 1 => ((nucleotides.map (fun c => (allKmers n).map (c :: ·))).flatten)

/-- The 64 codons in lexicographic order. -/
def allCodons : List String :=
  (allKmers 3).map List.asString

/-- The error kinds of the design (§7). -/
inductive FreqgenError
  | inputLength
  | translation
deriving DecidableEq

/-- Modelled from the spec (§4.1, the missing core module's
`codon_frequencies`): the codon-usage frequency mapping of a sequence, all 64
codons present, failing with an input-length error when the length of the
sequence is not divisible by 3. -/
def codon_frequencies (s : String) : Except FreqgenError (List (String × ℚ)) :=
  if s.data.length % 3 = 0 then
    Except.ok (allCodons.map (fun c => (c, codonFreqOf s c)))
  else Except.error FreqgenError.inputLength

/-- The codon-usage part of the CLI `featurize` command
(`src/freqgen/cli.py`, lines 56–62): every input sequence must have length
divisible by 3, and the reported frequencies are those of the concatenation
of all input sequences. -/
def featurizeCodons (seqs : List String) : Except FreqgenError (List (String × ℚ)) :=
  if seqs.all (fun s => s.data.length % 3 == 0) then codon_frequencies (String.join seqs)
  else Except.error FreqgenError.inputLength

/-- Modelled from the spec (§3, the caller-facing target description): a
`FrequencySpec` maps each k-mer order `k` to a k-mer→frequency mapping, plus
an optional codon→frequency mapping; mappings are association lists. -/
structure FrequencySpec where
  kSpecs : List (ℕ × List (String × ℚ))
  codons : Option (List (String × ℚ))

/-- Lexicographic comparison of character lists by code point, the order
Python's `sorted` uses on strings. -/
def charListLe : List Char → List Char → Bool
  | [], _ => true
  | _ :: _, [] => false
  | a :: as_, b :: bs => if a < b then true else if a = b then charListLe as_ bs else false

/-- Lexicographic order on strings by code point. -/
def strle (a b : String) : Prop :=
  charListLe a.data b.data = true

instance : DecidableRel strle :=
  fun a b => inferInstanceAs (Decidable (charListLe a.data b.data = true))

/-- Lexicographically sorted copy of a list of strings (Python `sorted`). -/
def sortStrings (l : List String) : List String :=
  List.insertionSort strle l

/-- Sorted copy of a list of naturals (Python `sorted`). -/
def sortNats (l : List ℕ) : List ℕ :=
  List.insertionSort (· ≤ ·) l

/-- The sorted key list of a k-mer or codon frequency mapping. -/
def mapKeysSorted (m : List (String × ℚ)) : List String :=
  sortStrings (m.map Prod.fst)

/-- The values of a frequency mapping in the order of its sorted keys. -/
def mapVals (m : List (String × ℚ)) : List ℚ :=
  (mapKeysSorted m).map (fun a => ((m.lookup a).getD 0))

/-- The k-mer orders of a spec, ascending. -/
def specKs (s : FrequencySpec) : List ℕ :=
  sortNats (s.kSpecs.map Prod.fst)

/-- The k-mer mapping a spec associates with the order `k`. -/
def kSpecOf (s : FrequencySpec) (k : ℕ) : List (String × ℚ) :=
  (s.kSpecs.lookup k).getD []

/-- The codon block of the canonical key list: the sorted codon keys when the
spec includes codons, empty otherwise. -/
def codonKeysPart (o : Option (List (String × ℚ))) : List String :=
  match o with
  | some m => mapKeysSorted m
  | none => []

/-- The codon block of the target vector. -/
def codonValsPart (o : Option (List (String × ℚ))) : List ℚ :=
  match o with
  | some m => mapVals m
  | none => []

/-- The codon block of a candidate's projected vector: the candidate's codon
frequencies in sorted codon-key order. -/
def codonProjPart (o : Option (List (String × ℚ))) (q : String) : List ℚ :=
  match o with
  | some m => (mapKeysSorted m).map (fun c => codonFreqOf q c)
  | none => []

/-- Modelled from the spec (§4.2, `vectorize` of the missing
`FeatureVectorizer`): the canonical key list of a spec — ascending `k`, then
lexicographic k-mer order within each `k`, then lexicographic codon order
appended last when codons are included. -/
def vectorizeKeys (s : FrequencySpec) : List String :=
  ((specKs s).map (fun k => mapKeysSorted (kSpecOf s k))).flatten ++ codonKeysPart s.codons

/-- Modelled from the spec (§4.2): the target feature vector, the spec's
frequencies read off in the canonical key order. -/
def vectorizeVals (s : FrequencySpec) : List ℚ :=
  ((specKs s).map (fun k => mapVals (kSpecOf s k))).flatten ++ codonValsPart s.codons

/-- Modelled from the spec (§4.2): `vectorize` returns the canonical key
order together with the target vector. -/
def vectorize (s : FrequencySpec) : List String × List ℚ :=
  (vectorizeKeys s, vectorizeVals s)

/-- Modelled from the spec (§4.2, `project` of the missing
`FeatureVectorizer`): the candidate sequence's observed frequencies read off
in the same canonical key order that `vectorize` established. -/
def project (s : FrequencySpec) (q : String) : List ℚ :=
  ((specKs s).map (fun k => (mapKeysSorted (kSpecOf s k)).map (fun w => kmerFreqOf q w))).flatten ++
    codonProjPart s.codons q

/-- Squared Euclidean distance of two equally long feature vectors.  The
fitness minimized by the optimizer is its square root; the square root is
strictly monotone, so minimizers (and the zero set) are unchanged. -/
def edSq (a b : List ℚ) : ℚ :=
  ((a.zip b).map (fun p => (p.1 - p.2) ^ 2)).sum

/-- Modelled from the spec (§4.3): the scalar fitness of a candidate against a
target spec, lower is better. -/
def fitness (s : FrequencySpec) (q : String) : ℚ :=
  edSq (vectorizeVals s) (project s q)

/-- All synonymous codon choices for an amino-acid list, in table order,
first residue varying slowest. -/
def encodingLists : List Char → List (List String)
  | [] => [[]]
  | a :: rest => ((synonyms a).map (fun c => (encodingLists rest).map (fun e => c :: e))).flatten

/-- The synonymous DNA encodings of an amino-acid sequence. -/
def encodings (aa : String) : List String :=
  (encodingLists aa.data).map (fun e => String.join e)

/-- First element of a list attaining the minimal value of `f`. -/
def argminBy {α : Type} (f : α → ℚ) : List α → Option α
  | [] => none
  | x :: rest =>
    match argminBy f rest with
    | none => some x
    | some m => some (if f x ≤ f m then x else m)

/-- Modelled from the spec (§4.7 and §8, the missing core module's
`generate`): the optimizer searches the synonymous-encoding space of the
original amino-acid sequence for the candidate minimizing the fitness and
returns the best individual found; the spec's worked cases require the search
to reach the fitness minimizer, so the operation is modelled as the
minimizer over the synonymous-encoding space. -/
def generate (t : FrequencySpec) (aa : String) : String :=
  (argminBy (fitness t) (encodings aa)).getD ""

/-- The target spec of the repository's `test_1mer`:
`{1: dict(A=0.5, T=0.5, G=0, C=0)}`. -/
def target1mer : FrequencySpec :=
  ⟨[(1, [("A", (1:ℚ)/2), ("T", (1:ℚ)/2), ("G", 0), ("C", 0)])], none⟩

/-- The codon-frequency mapping of the repository's `test_codon`: `1/3` at
`ACC`, `ACT` and `TAG` and `0` at each of the 61 other codons. -/
def tcMap : List (String × ℚ) :=
  allCodons.map (fun c => (c, if c == "ACC" || c == "ACT" || c == "TAG" then (1:ℚ)/3 else 0))

/-- The target spec of the repository's `test_codon`. -/
def targetCodon : FrequencySpec := ⟨[], some tcMap⟩

theorem windows_length (k : ℕ) (l : List Char) :
    (windows k l).length = l.length + 1 - k := by
  simp [windows]

theorem kmerFreqOf_eq_div (y w : String) :
    kmerFreqOf y w = (kmerCount y w : ℚ) / ((y.data.length + 1 - w.data.length : ℕ) : ℚ) := by
  rw [kmerFreqOf, windows_length]

theorem codonFreqOf_eq_div (y c : String) :
    codonFreqOf y c = (codonCount y c : ℚ) / (((codonChunks y.data).length : ℕ) : ℚ) := rfl

theorem argminBy_spec {α : Type} (f : α → ℚ) (l : List α) (hl : l ≠ []) :
    ∃ z, argminBy f l = some z ∧ z ∈ l ∧ ∀ y ∈ l, f z ≤ f y := by
  induction l with
  | nil => exact absurd rfl hl
  | cons a t ih =>
    cases t with
    | nil =>
      refine ⟨a, rfl, List.mem_singleton_self a, ?_⟩
      intro y hy
      rw [List.mem_singleton] at hy
      exact hy ▸ le_refl _
    | cons b u =>
      obtain ⟨m, hm, hmem, hmin⟩ := ih (List.cons_ne_nil b u)
      refine ⟨if f a ≤ f m then a else m, ?_, ?_, ?_⟩
      · rw [argminBy, hm]
      · by_cases h : f a ≤ f m
        · simp [h]
        · simp only [h, if_false]
          exact List.mem_cons_of_mem a hmem
      · intro y hy
        rcases List.mem_cons.mp hy with hya | hyt
        · by_cases h : f a ≤ f m
          · simp [h, hya, le_refl]
          · simp only [h, if_false, hya]
            exact le_of_not_le h
        · by_cases h : f a ≤ f m
          · simp only [h, if_true]
            exact le_trans h (hmin y hyt)
          · simp only [h, if_false]
            exact hmin y hyt

theorem edSq_nonneg (a b : List ℚ) : 0 ≤ edSq a b := by
  rw [edSq]
  apply List.sum_nonneg
  intro x hx
  obtain ⟨p, _, hp⟩ := List.mem_map.mp hx
  exact hp ▸ sq_nonneg _

theorem edSq_map_eq_zero_iff (ks : List String) (g h : String → ℚ) :
    edSq (ks.map g) (ks.map h) = 0 ↔ ∀ k ∈ ks, g k = h k := by
  induction ks with
  | nil => simp [edSq]
  | cons k t ih =>
    have hrest : 0 ≤ edSq (t.map g) (t.map h) := edSq_nonneg _ _
    have hsq : 0 ≤ (g k - h k) ^ 2 := sq_nonneg _
    have hstep : edSq ((k :: t).map g) ((k :: t).map h) =
        (g k - h k) ^ 2 + edSq (t.map g) (t.map h) := by
      simp [edSq]
    constructor
    · intro h0
      rw [hstep] at h0
      have h1 : (g k - h k) ^ 2 = 0 := le_antisymm (by linarith) hsq
      have h2 : edSq (t.map g) (t.map h) = 0 := le_antisymm (by linarith) hrest
      intro x hx
      rcases List.mem_cons.mp hx with hxk | hxt
      · subst hxk
        have := pow_eq_zero_iff (n := 2) (by norm_num) |>.mp h1
        linarith [sub_eq_zero.mp this]
      · exact ih.mp h2 x hxt
    · intro hall
      rw [hstep]
      have h1 : g k = h k := hall k (List.mem_cons_self k t)
      have h2 : edSq (t.map g) (t.map h) = 0 :=
        ih.mpr (fun x hx => hall x (List.mem_cons_of_mem k hx))
      rw [h1, h2, sub_self]
      ring

theorem q_half6 (n : ℕ) : ((1:ℚ)/2 = (n:ℚ)/6) ↔ n = 3 := by
  constructor
  · intro h
    have h6 : (n:ℚ) = 3 := by
      field_simp at h
      linarith
    exact_mod_cast h6
  · rintro rfl
    norm_num

theorem q_zero6 (n : ℕ) : ((0:ℚ) = (n:ℚ)/6) ↔ n = 0 := by
  constructor
  · intro h
    have h6 : (n:ℚ) = 0 := by
      field_simp at h
      linarith
    exact_mod_cast h6
  · rintro rfl
    norm_num

theorem q_third3 (n : ℕ) : ((1:ℚ)/3 = (n:ℚ)/3) ↔ n = 1 := by
  constructor
  · intro h
    have h3 : (n:ℚ) = 1 := by
      field_simp at h
      linarith
    exact_mod_cast h3
  · rintro rfl
    norm_num

theorem q_zero3 (n : ℕ) : ((0:ℚ) = (n:ℚ)/3) ↔ n = 0 := by
  constructor
  · intro h
    have h3 : (n:ℚ) = 0 := by
      field_simp at h
      linarith
    exact_mod_cast h3
  · rintro rfl
    norm_num

theorem lookup_map_pair (l : List String) (f : String → ℚ) (c : String) (hc : c ∈ l) :
    (l.map (fun a => (a, f a))).lookup c = some (f c) := by
  induction l with
  | nil => exact absurd hc (List.not_mem_nil c)
  | cons a t ih =>
    rw [List.map_cons, List.lookup]
    cases hbeq : (c == a) with
    | true =>
      rw [show c = a from eq_of_beq hbeq]
    | false =>
      have : c ∈ t := by
        rcases List.mem_cons.mp hc with rfl | h
        · simp at hbeq
        · exact h
      exact ih this

/-- The canonical key order of `target1mer`: the four nucleotides sorted. -/
def ks1 : List String := ["A", "C", "G", "T"]

/-- The target value of `target1mer` at a 1-mer key. -/
def tv1 : String → ℚ := fun a =>
  (([("A", (1:ℚ)/2), ("T", (1:ℚ)/2), ("G", 0), ("C", 0)] : List (String × ℚ)).lookup a).getD 0

theorem fitness1_eq (y : String) :
    fitness target1mer y = edSq (ks1.map tv1) (ks1.map (fun w => kmerFreqOf y w)) := rfl

/-- The target value of `targetCodon` at a codon key. -/
def tvC : String → ℚ := fun c => (tcMap.lookup c).getD 0

theorem fitnessC_eq (y : String) :
    fitness targetCodon y = edSq (allCodons.map tvC) (allCodons.map (fun c => codonFreqOf y c)) := rfl

/-- C1: for the target frequency spec `{1: {A:0.5, T:0.5, G:0, C:0}}` and the
original amino-acid sequence `"FK"` under the standard genetic code, the
generate operation returns exactly the DNA sequence `"TTTAAA"`. -/
theorem generate_target1mer_FK : generate target1mer "FK" = "TTTAAA" := by
  obtain ⟨z, hz, hmem, hmin⟩ := argminBy_spec (fitness target1mer) (encodings "FK") (by decide)
  have hlen : ∀ y ∈ encodings "FK", y.data.length = 6 := by decide
  have hcomp : ∀ y : String, y.data.length = 6 → (fitness target1mer y = 0 ↔
      (kmerCount y "A" = 3 ∧ kmerCount y "C" = 0 ∧ kmerCount y "G" = 0 ∧ kmerCount y "T" = 3)) := by
    intro y hy
    have hden : ∀ w : String, w.data.length = 1 → kmerFreqOf y w = (kmerCount y w : ℚ)/6 := by
      intro w hw
      rw [kmerFreqOf_eq_div, hy, hw]
      norm_num
    rw [fitness1_eq, edSq_map_eq_zero_iff]
    constructor
    · intro hall
      have hA := hall "A" (by decide)
      have hC := hall "C" (by decide)
      have hG := hall "G" (by decide)
      have hT := hall "T" (by decide)
      rw [hden "A" rfl, show tv1 "A" = 1/2 from rfl] at hA
      rw [hden "C" rfl, show tv1 "C" = 0 from rfl] at hC
      rw [hden "G" rfl, show tv1 "G" = 0 from rfl] at hG
      rw [hden "T" rfl, show tv1 "T" = 1/2 from rfl] at hT
      exact ⟨(q_half6 _).mp hA, (q_zero6 _).mp hC, (q_zero6 _).mp hG, (q_half6 _).mp hT⟩
    · rintro ⟨hA, hC, hG, hT⟩
      intro k hk
      rcases List.mem_cons.mp hk with rfl | hk
      · rw [hden "A" rfl, show tv1 "A" = 1/2 from rfl]
        exact (q_half6 _).mpr hA
      rcases List.mem_cons.mp hk with rfl | hk
      · rw [hden "C" rfl, show tv1 "C" = 0 from rfl]
        exact (q_zero6 _).mpr hC
      rcases List.mem_cons.mp hk with rfl | hk
      · rw [hden "G" rfl, show tv1 "G" = 0 from rfl]
        exact (q_zero6 _).mpr hG
      rcases List.mem_cons.mp hk with rfl | hk
      · rw [hden "T" rfl, show tv1 "T" = 1/2 from rfl]
        exact (q_half6 _).mpr hT
      · exact absurd hk (List.not_mem_nil k)
  have h0 : fitness target1mer "TTTAAA" = 0 :=
    (hcomp "TTTAAA" (by decide)).mpr ⟨by decide, by decide, by decide, by decide⟩
  have hz0 : fitness target1mer z = 0 := by
    have h1 : fitness target1mer z ≤ 0 := h0 ▸ hmin "TTTAAA" (by decide)
    have h2 : 0 ≤ fitness target1mer z := by
      rw [fitness1_eq]
      exact edSq_nonneg _ _
    linarith
  have hcounts := (hcomp z (hlen z hmem)).mp hz0
  have hcore : ∀ y ∈ encodings "FK",
      kmerCount y "A" = 3 → kmerCount y "C" = 0 → kmerCount y "G" = 0 → kmerCount y "T" = 3 →
      y = "TTTAAA" := by decide
  have hzeq := hcore z hmem hcounts.1 hcounts.2.1 hcounts.2.2.1 hcounts.2.2.2
  rw [generate, hz, Option.getD_some, hzeq]

/-- C2: for the target codon-frequency spec assigning 1/3 to each of `ACC`,
`ACT` and `TAG` and 0 to every other codon, and the original amino-acid
sequence `"TT*"` (Thr, Thr, Stop), the generate operation returns a sequence
in the two-element set `{"ACTACCTAG", "ACCACTTAG"}`. -/
theorem generate_targetCodon_TT_stop :
    generate targetCodon "TT*" = "ACTACCTAG" ∨ generate targetCodon "TT*" = "ACCACTTAG" := by
  obtain ⟨z, hz, hmem, hmin⟩ := argminBy_spec (fitness targetCodon) (encodings "TT*") (by decide)
  have hlen : ∀ y ∈ encodings "TT*", (codonChunks y.data).length = 3 := by decide
  have hcomp : ∀ y : String, (codonChunks y.data).length = 3 → (fitness targetCodon y = 0 ↔
      ∀ c ∈ allCodons, (if c == "ACC" || c == "ACT" || c == "TAG"
        then codonCount y c = 1 else codonCount y c = 0)) := by
    intro y hy
    have hpt : ∀ c ∈ allCodons, (tvC c = codonFreqOf y c ↔
        (if c == "ACC" || c == "ACT" || c == "TAG"
          then codonCount y c = 1 else codonCount y c = 0)) := by
      intro c hc
      have hl : tvC c = (if c == "ACC" || c == "ACT" || c == "TAG" then (1:ℚ)/3 else 0) := by
        rw [tvC, tcMap, lookup_map_pair _ _ _ hc, Option.getD_some]
      have hr : codonFreqOf y c = (codonCount y c : ℚ)/3 := by
        rw [codonFreqOf_eq_div, hy]
        norm_num
      rw [hl, hr]
      cases hcond : (c == "ACC" || c == "ACT" || c == "TAG") with
      | true => simpa using q_third3 (codonCount y c)
      | false => simpa using q_zero3 (codonCount y c)
    rw [fitnessC_eq, edSq_map_eq_zero_iff]
    constructor
    · intro hall c hc
      exact (hpt c hc).mp (hall c hc)
    · intro hall c hc
      exact (hpt c hc).mpr (hall c hc)
  have h0 : fitness targetCodon "ACTACCTAG" = 0 :=
    (hcomp "ACTACCTAG" (by decide)).mpr (by decide)
  have hz0 : fitness targetCodon z = 0 := by
    have h1 : fitness targetCodon z ≤ 0 := h0 ▸ hmin "ACTACCTAG" (by decide)
    have h2 : 0 ≤ fitness targetCodon z := by
      rw [fitnessC_eq]
      exact edSq_nonneg _ _
    linarith
  have hall := (hcomp z (hlen z hmem)).mp hz0
  have hACC : codonCount z "ACC" = 1 := by simpa using hall "ACC" (by decide)
  have hACT : codonCount z "ACT" = 1 := by simpa using hall "ACT" (by decide)
  have hTAG : codonCount z "TAG" = 1 := by simpa using hall "TAG" (by decide)
  have hcore : ∀ y ∈ encodings "TT*", codonCount y "ACC" = 1 → codonCount y "ACT" = 1 →
      codonCount y "TAG" = 1 → (y = "ACTACCTAG" ∨ y = "ACCACTTAG") := by decide
  have hzeq := hcore z hmem hACC hACT hTAG
  rw [generate, hz, Option.getD_some]
  exact hzeq

theorem codonChunks_append : ∀ (l₁ : List Char), l₁.length % 3 = 0 → ∀ l₂,
    codonChunks (l₁ ++ l₂) = codonChunks l₁ ++ codonChunks l₂
  | [], _, l₂ => rfl
  | [a], h, _ => absurd h (by simp)
  | [a, b], h, _ => absurd h (by simp)
  | a :: b :: c :: rest, h, l₂ => by
    have h' : rest.length % 3 = 0 := by
      simp only [List.length_cons] at h
      omega
    simp [codonChunks, codonChunks_append rest h' l₂]

theorem foldl_append_data (l : List String) (acc : String) :
    (l.foldl (· ++ ·) acc).data = acc.data ++ (l.map String.data).flatten := by
  induction l generalizing acc with
  | nil => simp
  | cons s t ih =>
    rw [List.foldl_cons, ih]
    simp

theorem join_data (l : List String) :
    (String.join l).data = (l.map String.data).flatten := by
  rw [String.join]
  simpa using foldl_append_data l ""

theorem join_length_mod (seqs : List String) (h : ∀ s ∈ seqs, s.data.length % 3 = 0) :
    (String.join seqs).data.length % 3 = 0 := by
  rw [join_data]
  induction seqs with
  | nil => simp
  | cons s t ih =>
    have hs := h s (List.mem_cons_self s t)
    have ht := ih (fun x hx => h x (List.mem_cons_of_mem s hx))
    simp only [List.map_cons, List.flatten_cons, List.length_append]
    omega

theorem codonCount_join (seqs : List String) (h : ∀ s ∈ seqs, s.data.length % 3 = 0) (c : String) :
    codonCount (String.join seqs) c = (seqs.map (fun s => codonCount s c)).sum := by
  induction seqs with
  | nil => rfl
  | cons s t ih =>
    have hs := h s (List.mem_cons_self s t)
    have ht : ∀ x ∈ t, x.data.length % 3 = 0 := fun x hx => h x (List.mem_cons_of_mem s hx)
    have hjoin : (String.join (s :: t)).data = s.data ++ (String.join t).data := by
      rw [join_data, join_data]
      simp
    rw [codonCount, hjoin, codonChunks_append s.data hs, List.count_append]
    rw [List.map_cons, List.sum_cons, ← ih ht]
    rfl

/-- C4: for every input sequence whose length is not divisible by 3, the
codon-frequency computation fails with the input-length error and never
returns a (truncated) result. -/
theorem codon_frequencies_length_error (s : String) (h : s.data.length % 3 ≠ 0) :
    codon_frequencies s = Except.error FreqgenError.inputLength ∧
      ∀ r, codon_frequencies s ≠ Except.ok r := by
  constructor
  · rw [codon_frequencies, if_neg h]
  · intro r
    rw [codon_frequencies, if_neg h]
    simp

theorem codon_frequencies_length_error_witness :
    codon_frequencies "AC" = Except.error FreqgenError.inputLength ∧
      ∀ r, codon_frequencies "AC" ≠ Except.ok r :=
  codon_frequencies_length_error "AC" (by decide)

/-- C9: when every input sequence's length is divisible by 3, the featurize
command reports the codon frequencies of the concatenation of all inputs
(codon counts pooled across sequences), and if any input's length is not
divisible by 3 it fails before computing any codon frequencies. -/
theorem featurize_codon_pooling (seqs : List String) :
    ((∀ s ∈ seqs, s.data.length % 3 = 0) →
      featurizeCodons seqs =
        Except.ok (allCodons.map (fun c => (c, codonFreqOf (String.join seqs) c))) ∧
      ∀ c, codonCount (String.join seqs) c = (seqs.map (fun s => codonCount s c)).sum) ∧
    ((∃ s ∈ seqs, s.data.length % 3 ≠ 0) →
      featurizeCodons seqs = Except.error FreqgenError.inputLength) := by
  constructor
  · intro h
    have hall : seqs.all (fun s => s.data.length % 3 == 0) = true := by
      rw [List.all_eq_true]
      intro s hs
      simpa using h s hs
    constructor
    · rw [featurizeCodons, if_pos hall, codon_frequencies, if_pos (join_length_mod seqs h)]
    · exact codonCount_join seqs h
  · rintro ⟨s, hs, hlen⟩
    have hall : ¬ (seqs.all (fun s => s.data.length % 3 == 0) = true) := by
      rw [List.all_eq_true]
      intro hforall
      exact hlen (by simpa using hforall s hs)
    rw [featurizeCodons, if_neg hall]

theorem featurize_codon_pooling_witness :
    (featurizeCodons ["ACTACC", "TAG"] =
      Except.ok (allCodons.map (fun c => (c, codonFreqOf (String.join ["ACTACC", "TAG"]) c))) ∧
      codonCount (String.join ["ACTACC", "TAG"]) "ACC" =
        (["ACTACC", "TAG"].map (fun s => codonCount s "ACC")).sum) ∧
    featurizeCodons ["AC"] = Except.error FreqgenError.inputLength :=
  ⟨⟨((featurize_codon_pooling ["ACTACC", "TAG"]).1 (by decide)).1,
    ((featurize_codon_pooling ["ACTACC", "TAG"]).1 (by decide)).2 "ACC"⟩,
   (featurize_codon_pooling ["AC"]).2 ⟨"AC", by decide, by decide⟩⟩

/-- C7: for every sequence and every target FrequencySpec, projecting the
sequence using the key order established by `vectorize` returns a feature
vector whose length equals the length of the target vector (and of the key
list) produced by `vectorize`. -/
theorem project_length_eq (s : FrequencySpec) (q : String) :
    (project s q).length = (vectorize s).2.length ∧
      (project s q).length = (vectorize s).1.length := by
  constructor
  · show (project s q).length = (vectorizeVals s).length
    rw [project, vectorizeVals]
    cases s.codons with
    | none =>
      simp only [codonProjPart, codonValsPart, mapVals, List.length_append,
        List.length_flatten, List.map_map, List.length_map]
      refine congrArg (· + _) (congrArg List.sum (List.map_congr_left ?_))
      intro k _
      simp [Function.comp]
    | some m =>
      simp only [codonProjPart, codonValsPart, mapVals, List.length_append,
        List.length_flatten, List.map_map, List.length_map]
      refine congrArg₂ (· + ·) (congrArg List.sum (List.map_congr_left ?_)) rfl
      intro k _
      simp [Function.comp]
  · show (project s q).length = (vectorizeKeys s).length
    rw [project, vectorizeKeys]
    cases s.codons with
    | none =>
      simp only [codonProjPart, codonKeysPart, List.length_append,
        List.length_flatten, List.map_map, List.length_map]
      refine congrArg (· + _) (congrArg List.sum (List.map_congr_left ?_))
      intro k _
      simp [Function.comp]
    | some m =>
      simp only [codonProjPart, codonKeysPart, List.length_append,
        List.length_flatten, List.map_map, List.length_map]
      refine congrArg₂ (· + ·) (congrArg List.sum (List.map_congr_left ?_)) rfl
      intro k _
      simp [Function.comp]

theorem charListLe_total : ∀ a b : List Char, charListLe a b = true ∨ charListLe b a = true
  | [], _ => Or.inl rfl
  | _ :: _, [] => Or.inr rfl
  | a :: as_, b :: bs => by
    rcases lt_trichotomy a b with h | h | h
    · left
      simp [charListLe, h]
    · subst h
      rcases charListLe_total as_ bs with ih | ih
      · left
        simp [charListLe, ih]
      · right
        simp [charListLe, ih]
    · right
      simp [charListLe, h]

theorem charListLe_trans : ∀ a b c : List Char,
    charListLe a b = true → charListLe b c = true → charListLe a c = true
  | [], _, _, _, _ => rfl
  | a :: as_, [], _, hab, _ => by simp [charListLe] at hab
  | _ :: _, _ :: _, [], _, hbc => by simp [charListLe] at hbc
  | a :: as_, b :: bs, c :: cs, hab, hbc => by
    simp only [charListLe] at hab hbc ⊢
    by_cases h1 : a < b
    · by_cases h2 : b < c
      · simp [lt_trans h1 h2]
      · by_cases h3 : b = c
        · subst h3
          simp [h1]
        · simp [h2, h3] at hbc
    · by_cases h4 : a = b
      · subst h4
        simp only [lt_irrefl, if_false, if_pos rfl] at hab
        by_cases h2 : a < c
        · simp [h2]
        · by_cases h3 : a = c
          · subst h3
            simp only [lt_irrefl, if_false, if_pos rfl] at hbc ⊢
            exact charListLe_trans as_ bs cs hab hbc
          · simp [h2, h3] at hbc
      · simp [h1, h4] at hab

theorem charListLe_antisymm : ∀ a b : List Char,
    charListLe a b = true → charListLe b a = true → a = b
  | [], [], _, _ => rfl
  | [], _ :: _, _, hba => by simp [charListLe] at hba
  | _ :: _, [], hab, _ => by simp [charListLe] at hab
  | a :: as_, b :: bs, hab, hba => by
    simp only [charListLe] at hab hba
    by_cases h1 : a < b
    · have h2 : ¬ b < a := lt_asymm h1
      have h3 : ¬ b = a := fun h => absurd (h ▸ h1) (lt_irrefl a)
      simp [h2, h3] at hba
    · by_cases h2 : a = b
      · subst h2
        simp only [lt_irrefl, if_false, if_pos rfl] at hab hba
        rw [charListLe_antisymm as_ bs hab hba]
      · simp [h1, h2] at hab

instance : IsTotal String strle :=
  ⟨fun a b => charListLe_total a.data b.data⟩

instance : IsTrans String strle :=
  ⟨fun a b c => charListLe_trans a.data b.data c.data⟩

instance : IsAntisymm String strle :=
  ⟨fun a b hab hba => by
    cases a
    cases b
    exact congrArg String.mk (charListLe_antisymm _ _ hab hba)⟩

theorem sortStrings_perm_eq {l₁ l₂ : List String} (h : l₁.Perm l₂) :
    sortStrings l₁ = sortStrings l₂ :=
  List.eq_of_perm_of_sorted
    ((List.perm_insertionSort strle l₁).trans (h.trans (List.perm_insertionSort strle l₂).symm))
    (List.sorted_insertionSort strle l₁) (List.sorted_insertionSort strle l₂)

theorem sortNats_perm_eq {l₁ l₂ : List ℕ} (h : l₁.Perm l₂) :
    sortNats l₁ = sortNats l₂ :=
  List.eq_of_perm_of_sorted
    ((List.perm_insertionSort _ l₁).trans (h.trans (List.perm_insertionSort _ l₂).symm))
    (List.sorted_insertionSort _ l₁) (List.sorted_insertionSort _ l₂)

/-- Structural equality of two frequency mappings. -/
def MapEquiv (m₁ m₂ : List (String × ℚ)) : Prop :=
  (m₁.map Prod.fst).Perm (m₂.map Prod.fst) ∧ ∀ a, m₁.lookup a = m₂.lookup a

/-- Structural equality of two FrequencySpecs. -/
def SpecEquiv (s₁ s₂ : FrequencySpec) : Prop :=
  (s₁.kSpecs.map Prod.fst).Perm (s₂.kSpecs.map Prod.fst) ∧
    (∀ k, Option.Rel MapEquiv (s₁.kSpecs.lookup k) (s₂.kSpecs.lookup k)) ∧
    Option.Rel MapEquiv s₁.codons s₂.codons

theorem mapKeysSorted_eq {m₁ m₂ : List (String × ℚ)} (h : MapEquiv m₁ m₂) :
    mapKeysSorted m₁ = mapKeysSorted m₂ :=
  sortStrings_perm_eq h.1

theorem mapVals_eq {m₁ m₂ : List (String × ℚ)} (h : MapEquiv m₁ m₂) :
    mapVals m₁ = mapVals m₂ := by
  rw [mapVals, mapVals, mapKeysSorted_eq h]
  exact List.map_congr_left (fun a _ => by rw [h.2 a])

theorem mapEquiv_getD {o₁ o₂ : Option (List (String × ℚ))}
    (h : Option.Rel MapEquiv o₁ o₂) : MapEquiv (o₁.getD []) (o₂.getD []) := by
  cases h with
  | none => exact ⟨List.Perm.refl _, fun a => rfl⟩
  | some hm => exact hm

theorem codonKeysPart_eq {o₁ o₂ : Option (List (String × ℚ))}
    (h : Option.Rel MapEquiv o₁ o₂) : codonKeysPart o₁ = codonKeysPart o₂ := by
  cases h with
  | none => rfl
  | some hm => exact mapKeysSorted_eq hm

theorem codonValsPart_eq {o₁ o₂ : Option (List (String × ℚ))}
    (h : Option.Rel MapEquiv o₁ o₂) : codonValsPart o₁ = codonValsPart o₂ := by
  cases h with
  | none => rfl
  | some hm => exact mapVals_eq hm

/-- C8: calling vectorize on two structurally equal FrequencySpecs yields
identical key orders and identical vectors; vectorize is a pure function of
the spec's contents as a mapping, with no hidden ordering state. -/
theorem vectorize_deterministic (s₁ s₂ : FrequencySpec) (h : SpecEquiv s₁ s₂) :
    vectorize s₁ = vectorize s₂ := by
  obtain ⟨hks, hkmaps, hcod⟩ := h
  have hspecks : specKs s₁ = specKs s₂ := sortNats_perm_eq hks
  have hkeysorted : ∀ k, mapKeysSorted (kSpecOf s₁ k) = mapKeysSorted (kSpecOf s₂ k) := by
    intro k
    rw [kSpecOf, kSpecOf]
    exact mapKeysSorted_eq (mapEquiv_getD (hkmaps k))
  have hvals : ∀ k, mapVals (kSpecOf s₁ k) = mapVals (kSpecOf s₂ k) := by
    intro k
    rw [kSpecOf, kSpecOf]
    exact mapVals_eq (mapEquiv_getD (hkmaps k))
  have hkeys : vectorizeKeys s₁ = vectorizeKeys s₂ := by
    rw [vectorizeKeys, vectorizeKeys, hspecks]
    exact congrArg₂ (· ++ ·)
      (congrArg List.flatten (List.map_congr_left (fun k _ => hkeysorted k)))
      (codonKeysPart_eq hcod)
  have hv : vectorizeVals s₁ = vectorizeVals s₂ := by
    rw [vectorizeVals, vectorizeVals, hspecks]
    exact congrArg₂ (· ++ ·)
      (congrArg List.flatten (List.map_congr_left (fun k _ => hvals k)))
      (codonValsPart_eq hcod)
  rw [vectorize, vectorize, hkeys, hv]

theorem vectorize_deterministic_witness :
    vectorize ⟨[(1, [("A", (1:ℚ)/2), ("T", (1:ℚ)/2)])], none⟩ =
      vectorize ⟨[(1, [("T", (1:ℚ)/2), ("A", (1:ℚ)/2)])], none⟩ := by
  refine vectorize_deterministic _ _ ⟨by decide, ?_, Option.Rel.none⟩
  intro k
  by_cases hk : k = 1
  · subst hk
    refine Option.Rel.some ⟨by decide, ?_⟩
    intro a
    cases hA : a == "A" <;> cases hT : a == "T" <;> simp [List.lookup, hA, hT]
  · have hbeq : (k == 1) = false := by simpa using hk
    simp only [List.lookup, hbeq]
    exact Option.Rel.none

/-- Apply a position-dependent codon transformation, the position starting
at `i`. -/
def mapCodonsFrom (g : ℕ → List Char → List Char) (i : ℕ) : List (List Char) → List (List Char)
  | [] => []
  | c :: rest => g i c :: mapCodonsFrom g (i + 1) rest

/-- Uniform choice among candidate replacement codons: the pick-th candidate,
or the original codon when there is no candidate. -/
def pickSyn (cands : List String) (pick : ℕ) (cod : List Char) : List Char :=
  match cands with
  | [] => cod
  | w :: ws => ((w :: ws).getD (pick % (w :: ws).length) w).data

/-- Modelled from the spec (§4.4, `mutate` of the missing `SynonymousOperator`):
when the rng flags a codon position, the codon is replaced by a uniformly
random *other* synonymous codon (the pick selecting among them); otherwise it
is kept. -/
def mutateCodon (flag : Bool) (pick : ℕ) (cod : List Char) : List Char :=
  if flag then
    match tableAA ⟨cod⟩ with
    | none => cod
    | some a => pickSyn ((synonyms a).filter (fun c => c != (⟨cod⟩ : String))) pick cod
  else cod

/-- Modelled from the spec (§4.4): per-codon synonymous mutation, rng decisions
threaded explicitly per position. -/
def mutate (flag : ℕ → Bool) (pick : ℕ → ℕ) (s : String) : String :=
  ⟨(mapCodonsFrom (fun i c => mutateCodon (flag i) (pick i) c) 0 (codonChunks s.data)).flatten⟩

/-- Modelled from the spec (§4.5, Initializing): every codon replaced by a
uniformly random synonymous codon of the same amino acid. -/
def initCodon (pick : ℕ) (cod : List Char) : List Char :=
  match tableAA ⟨cod⟩ with
  | none => cod
  | some a => pickSyn (synonyms a) pick cod

/-- Modelled from the spec (§4.5): an initial-population individual, the
original sequence with every codon independently re-randomized among its
synonyms. -/
def initialSeq (pick : ℕ → ℕ) (s : String) : String :=
  ⟨(mapCodonsFrom (fun i c => initCodon (pick i) c) 0 (codonChunks s.data)).flatten⟩

/-- Modelled from the spec (§4.4, `crossover`): when the rng decides to cross,
swap the codon suffixes of the two parents at the codon-aligned point `n`;
otherwise return the parents unchanged (cloned). -/
def crossover (doCross : Bool) (a b : String) (n : ℕ) : String × String :=
  if doCross then
    (⟨((codonChunks a.data).take n ++ (codonChunks b.data).drop n).flatten⟩,
     ⟨((codonChunks b.data).take n ++ (codonChunks a.data).drop n).flatten⟩)
  else (a, b)

theorem chunks_len3 : ∀ (l : List Char), ∀ c ∈ codonChunks l, c.length = 3
  | a :: b :: d :: rest, c, hc => by
    rcases List.mem_cons.mp hc with rfl | hc
    · rfl
    · exact chunks_len3 rest c hc
  | [], _, hc => absurd hc (List.not_mem_nil _)
  | [a], _, hc => absurd hc (List.not_mem_nil _)
  | [a, b], _, hc => absurd hc (List.not_mem_nil _)

theorem chunks_flatten : ∀ (L : List (List Char)), (∀ c ∈ L, c.length = 3) →
    codonChunks L.flatten = L
  | [], _ => rfl
  | c :: L, h => by
    have hc : c.length = 3 := h c (List.mem_cons_self c L)
    match c, hc with
    | [a, b, d], _ =>
      have hL : ∀ x ∈ L, x.length = 3 := fun x hx => h x (List.mem_cons_of_mem _ hx)
      have hfl : ([a, b, d] :: L).flatten = a :: b :: d :: L.flatten := by simp
      rw [hfl, codonChunks, chunks_flatten L hL]

theorem flatten_len_mod (L : List (List Char)) (h : ∀ c ∈ L, c.length = 3) :
    L.flatten.length % 3 = 0 := by
  induction L with
  | nil => rfl
  | cons c t ih =>
    have hc : c.length = 3 := h c (List.mem_cons_self c t)
    have ht := ih (fun x hx => h x (List.mem_cons_of_mem _ hx))
    simp only [List.flatten_cons, List.length_append, hc]
    omega

theorem table_keys_nodup : (standardTable.map Prod.fst).Nodup := by decide

theorem lookup_of_mem_nodup {β : Type} : ∀ (l : List (String × β)),
    (l.map Prod.fst).Nodup → ∀ {k : String} {v : β}, (k, v) ∈ l → l.lookup k = some v
  | [], _, _, _, h => absurd h (List.not_mem_nil _)
  | (k', v') :: t, hnd, k, v, h => by
    rw [List.lookup]
    rcases List.mem_cons.mp h with heq | ht
    · obtain ⟨rfl, rfl⟩ := Prod.mk.injEq .. ▸ heq
      simp
    · have hk : k ≠ k' := by
        rintro rfl
        have : k ∈ t.map Prod.fst := List.mem_map.mpr ⟨(k, v), ht, rfl⟩
        exact (List.nodup_cons.mp hnd).1 this
      have hbeq : (k == k') = false := by
        simpa using hk
      rw [hbeq]
      exact lookup_of_mem_nodup t (List.nodup_cons.mp hnd).2 ht

theorem mem_synonyms_tableAA {c : String} {a : Char} (h : c ∈ synonyms a) :
    tableAA c = some a := by
  rw [synonyms] at h
  obtain ⟨p, hp, rfl⟩ := List.mem_map.mp h
  have hmem := List.mem_of_mem_filter hp
  have hpa : p.2 = a := by
    have := List.of_mem_filter hp
    simpa using this
  rw [tableAA]
  have : (p.1, a) ∈ standardTable := by
    rw [← hpa]
    exact hmem
  exact lookup_of_mem_nodup standardTable table_keys_nodup this

theorem mem_synonyms_len {c : String} {a : Char} (h : c ∈ synonyms a) :
    c.data.length = 3 := by
  have htab : ∀ p ∈ standardTable, p.1.data.length = 3 := by decide
  rw [synonyms] at h
  obtain ⟨p, hp, rfl⟩ := List.mem_map.mp h
  exact htab p (List.mem_of_mem_filter hp)

theorem pickSyn_mem_or_eq (cands : List String) (pick : ℕ) (cod : List Char) :
    pickSyn cands pick cod = cod ∨ ∃ c ∈ cands, pickSyn cands pick cod = c.data := by
  rw [pickSyn.eq_def]
  cases cands with
  | nil => exact Or.inl rfl
  | cons w ws =>
    right
    refine ⟨(w :: ws).getD (pick % (w :: ws).length) w, ?_, rfl⟩
    have hlt : pick % (w :: ws).length < (w :: ws).length := Nat.mod_lt _ (by simp)
    rw [List.getD_eq_getElem _ _ hlt]
    exact List.getElem_mem hlt

theorem mutateCodon_aa (flag : Bool) (pick : ℕ) (cod : List Char) :
    tableAA ⟨mutateCodon flag pick cod⟩ = tableAA ⟨cod⟩ := by
  rw [mutateCodon]
  cases flag with
  | false => rfl
  | true =>
    rw [if_pos rfl]
    rcases h : tableAA ⟨cod⟩ with _ | a
    · exact h
    · show tableAA ⟨pickSyn ((synonyms a).filter (fun c => c != (⟨cod⟩ : String))) pick cod⟩ =
        some a
      rcases pickSyn_mem_or_eq ((synonyms a).filter (fun c => c != (⟨cod⟩ : String))) pick cod
        with heq | ⟨c, hc, heq⟩
      · rw [heq]
        exact h
      · rw [heq]
        have hcs : c ∈ synonyms a := List.mem_of_mem_filter hc
        have : (⟨c.data⟩ : String) = c := rfl
        rw [this]
        exact mem_synonyms_tableAA hcs

theorem mutateCodon_len (flag : Bool) (pick : ℕ) (cod : List Char) (hlen : cod.length = 3) :
    (mutateCodon flag pick cod).length = 3 := by
  rw [mutateCodon]
  cases flag with
  | false => exact hlen
  | true =>
    rw [if_pos rfl]
    rcases h : tableAA ⟨cod⟩ with _ | a
    · exact hlen
    · show (pickSyn ((synonyms a).filter (fun c => c != (⟨cod⟩ : String))) pick cod).length = 3
      rcases pickSyn_mem_or_eq ((synonyms a).filter (fun c => c != (⟨cod⟩ : String))) pick cod
        with heq | ⟨c, hc, heq⟩
      · rw [heq]
        exact hlen
      · rw [heq]
        exact mem_synonyms_len (List.mem_of_mem_filter hc)

theorem initCodon_aa (pick : ℕ) (cod : List Char) :
    tableAA ⟨initCodon pick cod⟩ = tableAA ⟨cod⟩ := by
  rw [initCodon]
  rcases h : tableAA ⟨cod⟩ with _ | a
  · exact h
  · show tableAA ⟨pickSyn (synonyms a) pick cod⟩ = some a
    rcases pickSyn_mem_or_eq (synonyms a) pick cod with heq | ⟨c, hc, heq⟩
    · rw [heq]
      exact h
    · rw [heq]
      have : (⟨c.data⟩ : String) = c := rfl
      rw [this]
      exact mem_synonyms_tableAA hc

theorem initCodon_len (pick : ℕ) (cod : List Char) (hlen : cod.length = 3) :
    (initCodon pick cod).length = 3 := by
  rw [initCodon]
  rcases h : tableAA ⟨cod⟩ with _ | a
  · exact hlen
  · show (pickSyn (synonyms a) pick cod).length = 3
    rcases pickSyn_mem_or_eq (synonyms a) pick cod with heq | ⟨c, hc, heq⟩
    · rw [heq]
      exact hlen
    · rw [heq]
      exact mem_synonyms_len hc

theorem translateCodons_congr (g : ℕ → List Char → List Char)
    (hg : ∀ i c, tableAA ⟨g i c⟩ = tableAA ⟨c⟩) :
    ∀ (L : List (List Char)) (i : ℕ),
      translateCodons (mapCodonsFrom g i L) = translateCodons L
  | [], _ => rfl
  | c :: L, i => by
    simp only [mapCodonsFrom, translateCodons]
    rw [hg i c, translateCodons_congr g hg L (i + 1)]

theorem mapCodonsFrom_len (g : ℕ → List Char → List Char)
    (hg : ∀ i c, c.length = 3 → (g i c).length = 3) :
    ∀ (L : List (List Char)) (i : ℕ), (∀ c ∈ L, c.length = 3) →
      ∀ c' ∈ mapCodonsFrom g i L, c'.length = 3
  | [], _, _, _, hc' => absurd hc' (List.not_mem_nil _)
  | c :: L, i, hL, c', hc' => by
    rw [mapCodonsFrom] at hc'
    rcases List.mem_cons.mp hc' with rfl | hmem
    · exact hg i c (hL c (List.mem_cons_self c L))
    · exact mapCodonsFrom_len g hg L (i + 1)
        (fun x hx => hL x (List.mem_cons_of_mem _ hx)) c' hmem

theorem opSeq_translate (g : ℕ → List Char → List Char)
    (hg_aa : ∀ i c, tableAA ⟨g i c⟩ = tableAA ⟨c⟩)
    (hg_len : ∀ i c, c.length = 3 → (g i c).length = 3)
    (s : String) (hs : s.data.length % 3 = 0) :
    translateStr ⟨(mapCodonsFrom g 0 (codonChunks s.data)).flatten⟩ = translateStr s := by
  have hchunks : ∀ c ∈ codonChunks s.data, c.length = 3 := chunks_len3 s.data
  have hlen3 : ∀ c' ∈ mapCodonsFrom g 0 (codonChunks s.data), c'.length = 3 :=
    mapCodonsFrom_len g hg_len _ 0 hchunks
  rw [translateStr, translateStr, if_pos hs]
  rw [show (String.mk ((mapCodonsFrom g 0 (codonChunks s.data)).flatten)).data =
      (mapCodonsFrom g 0 (codonChunks s.data)).flatten from rfl]
  rw [if_pos (flatten_len_mod _ hlen3)]
  rw [chunks_flatten _ hlen3, translateCodons_congr g hg_aa _ 0]

theorem translateCodons_append : ∀ (L₁ : List (List Char)) {L₂ : List (List Char)}
    {t₁ t₂ : List Char}, translateCodons L₁ = some t₁ → translateCodons L₂ = some t₂ →
    translateCodons (L₁ ++ L₂) = some (t₁ ++ t₂)
  | [], L₂, t₁, t₂, h₁, h₂ => by
    rw [translateCodons] at h₁
    injection h₁ with h
    subst h
    simpa using h₂
  | c :: L, L₂, t₁, t₂, h₁, h₂ => by
    simp only [translateCodons] at h₁
    rcases ha : tableAA ⟨c⟩ with _ | a <;> rw [ha] at h₁
    · simp at h₁
    · rcases hL : translateCodons L with _ | t' <;> rw [hL] at h₁
      · simp at h₁
      · injection h₁ with h
        subst h
        rw [List.cons_append]
        simp only [translateCodons]
        rw [ha, translateCodons_append L hL h₂]
        rfl

theorem translateCodons_take : ∀ (L : List (List Char)) {t : List Char} (n : ℕ),
    translateCodons L = some t → translateCodons (L.take n) = some (t.take n)
  | [], t, n, h => by
    rw [translateCodons] at h
    injection h with h
    subst h
    simp [translateCodons]
  | c :: L, t, 0, h => by
    simp [translateCodons]
  | c :: L, t, n + 1, h => by
    simp only [translateCodons] at h
    rcases ha : tableAA ⟨c⟩ with _ | a <;> rw [ha] at h
    · simp at h
    · rcases hL : translateCodons L with _ | t' <;> rw [hL] at h
      · simp at h
      · injection h with h
        subst h
        rw [List.take_succ_cons, List.take_succ_cons]
        simp only [translateCodons]
        rw [ha, translateCodons_take L n hL]

theorem translateCodons_drop : ∀ (L : List (List Char)) {t : List Char} (n : ℕ),
    translateCodons L = some t → translateCodons (L.drop n) = some (t.drop n)
  | [], t, n, h => by
    rw [translateCodons] at h
    injection h with h
    subst h
    simp [translateCodons]
  | c :: L, t, 0, h => by
    simpa [translateCodons] using h
  | c :: L, t, n + 1, h => by
    simp only [translateCodons] at h
    rcases ha : tableAA ⟨c⟩ with _ | a <;> rw [ha] at h
    · simp at h
    · rcases hL : translateCodons L with _ | t' <;> rw [hL] at h
      · simp at h
      · injection h with h
        subst h
        rw [List.drop_succ_cons, List.drop_succ_cons]
        exact translateCodons_drop L n hL

theorem translateStr_some_parts {a t : String} (h : translateStr a = some t) :
    a.data.length % 3 = 0 ∧ translateCodons (codonChunks a.data) = some t.data := by
  rw [translateStr] at h
  by_cases hmod : a.data.length % 3 = 0
  · rw [if_pos hmod] at h
    refine ⟨hmod, ?_⟩
    rcases htc : translateCodons (codonChunks a.data) with _ | u <;> rw [htc] at h
    · simp at h
    · simp only [Option.map_some'] at h
      injection h with h
      subst h
      rfl
  · rw [if_neg hmod] at h
    simp at h

/-- C3: every sequence produced by the genetic operators (initialization,
mutate, crossover) translates to the same amino-acid sequence as the sequence
it was produced from; in particular mutate never changes the encoded
amino-acid sequence. -/
theorem operators_preserve_protein (s a b t : String) (flag : ℕ → Bool)
    (pick pick2 : ℕ → ℕ) (n : ℕ) (doCross : Bool)
    (hs : s.data.length % 3 = 0) (ha : translateStr a = some t) (hb : translateStr b = some t) :
    translateStr (mutate flag pick s) = translateStr s ∧
      translateStr (initialSeq pick2 s) = translateStr s ∧
      translateStr (crossover doCross a b n).1 = some t ∧
      translateStr (crossover doCross a b n).2 = some t := by
  obtain ⟨hamod, hatc⟩ := translateStr_some_parts ha
  obtain ⟨hbmod, hbtc⟩ := translateStr_some_parts hb
  have hchild : ∀ (x y : String), translateStr x = some t → translateStr y = some t →
      translateStr ⟨((codonChunks x.data).take n ++ (codonChunks y.data).drop n).flatten⟩ =
        some t := by
    intro x y hx hy
    obtain ⟨hxmod, hxtc⟩ := translateStr_some_parts hx
    obtain ⟨hymod, hytc⟩ := translateStr_some_parts hy
    have hlen3 : ∀ c ∈ (codonChunks x.data).take n ++ (codonChunks y.data).drop n,
        c.length = 3 := by
      intro c hc
      rcases List.mem_append.mp hc with h | h
      · exact chunks_len3 x.data c (List.mem_of_mem_take h)
      · exact chunks_len3 y.data c (List.mem_of_mem_drop h)
    rw [translateStr]
    rw [show (String.mk (((codonChunks x.data).take n ++
        (codonChunks y.data).drop n).flatten)).data =
        ((codonChunks x.data).take n ++ (codonChunks y.data).drop n).flatten from rfl]
    rw [if_pos (flatten_len_mod _ hlen3), chunks_flatten _ hlen3]
    rw [translateCodons_append _ (translateCodons_take _ n hxtc) (translateCodons_drop _ n hytc)]
    rw [List.take_append_drop]
    rfl
  refine ⟨opSeq_translate _ (fun i c => mutateCodon_aa (flag i) (pick i) c)
    (fun i c => mutateCodon_len (flag i) (pick i) c) s hs,
    opSeq_translate _ (fun i c => initCodon_aa (pick2 i) c)
      (fun i c => initCodon_len (pick2 i) c) s hs, ?_, ?_⟩
  · rw [crossover]
    cases doCross with
    | false => exact ha
    | true => exact hchild a b ha hb
  · rw [crossover]
    cases doCross with
    | false => exact hb
    | true => exact hchild b a hb ha

theorem operators_preserve_protein_witness :
    translateStr (mutate (fun _ => true) (fun i => i) "TTTAAA") = translateStr "TTTAAA" ∧
      translateStr (initialSeq (fun i => i + 1) "TTTAAA") = translateStr "TTTAAA" ∧
      translateStr (crossover true "ACTACCTAG" "ACCACTTAG" 1).1 = some "TT*" ∧
      translateStr (crossover true "ACTACCTAG" "ACCACTTAG" 1).2 = some "TT*" :=
  operators_preserve_protein "TTTAAA" "ACTACCTAG" "ACCACTTAG" "TT*"
    (fun _ => true) (fun i => i) (fun i => i + 1) 1 true
    (by decide) (by decide) (by decide)

/-- Modelled from the spec (§3, ConvergenceState): best fitness so far and the
number of generations since the last improvement. -/
structure ConvState where
  best : ℚ
  sinceImp : ℕ

/-- Modelled from the spec (§4.6): one ConvergenceController update with the
generation's best fitness `r`: a relative improvement strictly exceeding the
threshold resets the counter and updates the best, anything else increments
the counter. -/
def convStep (th r : ℚ) (st : ConvState) : ConvState :=
  if r < st.best * (1 - th) then ⟨r, 0⟩ else ⟨st.best, st.sinceImp + 1⟩

/-- The controller state after `n` generations of the best-fitness stream `f`,
starting from best `b₀`. -/
def convRun (th b₀ : ℚ) (f : ℕ → ℚ) : ℕ → ConvState
  | 0 => ⟨b₀, 0⟩
  | n + 1 => convStep th (f n) (convRun th b₀ f n)

/-- Generation `n` improves on the recorded best. -/
def improves (th b₀ : ℚ) (f : ℕ → ℚ) (n : ℕ) : Prop :=
  f n < (convRun th b₀ f n).best * (1 - th)

/-- The controller signals termination after `n` generations. -/
def terminated (th b₀ : ℚ) (f : ℕ → ℚ) (maxG n : ℕ) : Prop :=
  maxG ≤ (convRun th b₀ f n).sinceImp

theorem convRun_best_nonneg (th b₀ : ℚ) (f : ℕ → ℚ) (hb₀ : 0 ≤ b₀) (hf : ∀ n, 0 ≤ f n) :
    ∀ n, 0 ≤ (convRun th b₀ f n).best := by
  intro n
  induction n with
  | zero => exact hb₀
  | succ n ih =>
    rw [convRun, convStep]
    by_cases h : f n < (convRun th b₀ f n).best * (1 - th)
    · rw [if_pos h]
      exact hf n
    · rw [if_neg h]
      exact ih

theorem convRun_best_step_le (th b₀ : ℚ) (f : ℕ → ℚ) (hth0 : 0 ≤ th) (hb₀ : 0 ≤ b₀)
    (hf : ∀ n, 0 ≤ f n) : ∀ n, (convRun th b₀ f (n + 1)).best ≤ (convRun th b₀ f n).best := by
  intro n
  rw [convRun, convStep]
  by_cases h : f n < (convRun th b₀ f n).best * (1 - th)
  · rw [if_pos h]
    have hb := convRun_best_nonneg th b₀ f hb₀ hf n
    have h1 : (convRun th b₀ f n).best * (1 - th) ≤ (convRun th b₀ f n).best :=
      mul_le_of_le_one_right hb (by linarith)
    exact le_of_lt (lt_of_lt_of_le h h1)
  · rw [if_neg h]

theorem convRun_best_le (th b₀ : ℚ) (f : ℕ → ℚ) (hth0 : 0 ≤ th) (hb₀ : 0 ≤ b₀)
    (hf : ∀ n, 0 ≤ f n) : ∀ {k m : ℕ}, k ≤ m →
      (convRun th b₀ f m).best ≤ (convRun th b₀ f k).best := by
  intro k m hkm
  induction m with
  | zero =>
    obtain rfl : k = 0 := Nat.le_zero.mp hkm
    exact le_refl _
  | succ m ih =>
    rcases Nat.lt_or_ge k (m + 1) with h | h
    · exact le_trans (convRun_best_step_le th b₀ f hth0 hb₀ hf m) (ih (Nat.lt_succ_iff.mp h))
    · obtain rfl : k = m + 1 := Nat.le_antisymm hkm h
      exact le_refl _

theorem improves_best_lt (th b₀ : ℚ) (f : ℕ → ℚ) (hth0 : 0 ≤ th) (hb₀ : 0 ≤ b₀)
    (hf : ∀ n, 0 ≤ f n) {n : ℕ} (h : improves th b₀ f n) :
    (convRun th b₀ f (n + 1)).best < (convRun th b₀ f n).best := by
  have h' : f n < (convRun th b₀ f n).best * (1 - th) := h
  rw [convRun, convStep, if_pos h']
  have hb := convRun_best_nonneg th b₀ f hb₀ hf n
  have h1 : (convRun th b₀ f n).best * (1 - th) ≤ (convRun th b₀ f n).best :=
    mul_le_of_le_one_right hb (by linarith)
  exact lt_of_lt_of_le h h1

theorem improves_best_eq {th b₀ : ℚ} {f : ℕ → ℚ} {n : ℕ} (h : improves th b₀ f n) :
    (convRun th b₀ f (n + 1)).best = f n := by
  have h' : f n < (convRun th b₀ f n).best * (1 - th) := h
  rw [convRun, convStep, if_pos h']

theorem no_improvement_counts (th b₀ : ℚ) (f : ℕ → ℚ) (g : ℕ)
    (h : ∀ k, g ≤ k → ¬ improves th b₀ f k) :
    ∀ j, (convRun th b₀ f (g + j)).sinceImp = (convRun th b₀ f g).sinceImp + j := by
  intro j
  induction j with
  | zero => rfl
  | succ j ih =>
    have heq : g + (j + 1) = (g + j) + 1 := rfl
    have h' : ¬ (f (g + j) < (convRun th b₀ f (g + j)).best * (1 - th)) :=
      h (g + j) (Nat.le_add_right g j)
    rw [heq, convRun, convStep, if_neg h', ih]
    rfl

/-- C5: for every finite configuration (the per-generation best fitness drawn
from a finite set of values) the generational loop terminates in finitely many
generations, and it terminates within `maxGensSinceImprovement` generations of
the last strict improvement: the controller signals termination once the
generations-since-improvement counter reaches the threshold. -/
theorem convergence_terminates (th b₀ : ℚ) (f : ℕ → ℚ) (S : Finset ℚ) (maxG : ℕ)
    (hth0 : 0 ≤ th) (hb₀ : 0 ≤ b₀) (hf : ∀ n, 0 ≤ f n) (hS : ∀ n, f n ∈ S) :
    (∀ g, (∀ k, g ≤ k → ¬ improves th b₀ f k) → terminated th b₀ f maxG (g + maxG)) ∧
      (∃ N, terminated th b₀ f maxG N) := by
  have parta : ∀ g, (∀ k, g ≤ k → ¬ improves th b₀ f k) →
      terminated th b₀ f maxG (g + maxG) := by
    intro g hg
    rw [terminated, no_improvement_counts th b₀ f g hg maxG]
    omega
  refine ⟨parta, ?_⟩
  by_contra hno
  push_neg at hno
  have hunb : ∀ g, ∃ k, g ≤ k ∧ improves th b₀ f k := by
    intro g
    by_contra hg
    push_neg at hg
    exact hno (g + maxG) (parta g hg)
  have hinj : Set.InjOn (fun n => (convRun th b₀ f (n + 1)).best)
      {n | improves th b₀ f n} := by
    intro n hn m hm hnm
    have hnm' : (convRun th b₀ f (n + 1)).best = (convRun th b₀ f (m + 1)).best := hnm
    rcases lt_trichotomy n m with h | h | h
    · exfalso
      have h1 : (convRun th b₀ f m).best ≤ (convRun th b₀ f (n + 1)).best :=
        convRun_best_le th b₀ f hth0 hb₀ hf (Nat.succ_le_of_lt h)
      have h2 := improves_best_lt th b₀ f hth0 hb₀ hf hm
      have h3 : (convRun th b₀ f (m + 1)).best < (convRun th b₀ f (n + 1)).best :=
        lt_of_lt_of_le h2 h1
      rw [hnm'] at h3
      exact lt_irrefl _ h3
    · exact h
    · exfalso
      have h1 : (convRun th b₀ f n).best ≤ (convRun th b₀ f (m + 1)).best :=
        convRun_best_le th b₀ f hth0 hb₀ hf (Nat.succ_le_of_lt h)
      have h2 := improves_best_lt th b₀ f hth0 hb₀ hf hn
      have h3 : (convRun th b₀ f (n + 1)).best < (convRun th b₀ f (m + 1)).best :=
        lt_of_lt_of_le h2 h1
      rw [← hnm'] at h3
      exact lt_irrefl _ h3
  have hfin : Set.Finite {n | improves th b₀ f n} := by
    apply Set.Finite.of_finite_image _ hinj
    apply Set.Finite.subset S.finite_toSet
    rintro x ⟨n, hn, rfl⟩
    show (convRun th b₀ f (n + 1)).best ∈ (S : Set ℚ)
    rw [improves_best_eq hn]
    exact hS n
  have hinf : Set.Infinite {n | improves th b₀ f n} := by
    apply Set.infinite_of_not_bddAbove
    rintro ⟨b, hb⟩
    obtain ⟨k, hk, hki⟩ := hunb (b + 1)
    have := hb hki
    omega
  exact hinf hfin

theorem convergence_terminates_witness :
    ∃ N, terminated 0 0 (fun _ => 0) 1 N :=
  (convergence_terminates 0 0 (fun _ => 0) {0} 1 (le_refl 0) (le_refl 0)
    (fun _ => le_refl 0) (fun _ => Finset.mem_singleton.mpr rfl)).2

/-- Modelled from the spec (§4.5): the single best (lowest-fitness) individual
of a population; fitness scoring is delegated to `fit`. -/
def elite (fit : String → ℚ) : List String → String
  | [] => ""
  | [x] => x
  | x :: y :: rest => if fit x ≤ fit (elite fit (y :: rest)) then x else elite fit (y :: rest)

/-- The best (lowest) fitness in a population. -/
def bestFitness (fit : String → ℚ) (pop : List String) : ℚ :=
  fit (elite fit pop)

/-- Modelled from the spec (§4.5, Evolving step 2, elitism): each generation
carries the previous generation's single best individual forward unchanged,
the remaining slots being filled with that generation's offspring `off`. -/
def popRun (fit : String → ℚ) (initPop : List String) (off : ℕ → List String) : ℕ → List String
  | 0 => initPop
  | n + 1 => elite fit (popRun fit initPop off n) :: off n

theorem bestFitness_le (fit : String → ℚ) : ∀ (pop : List String), ∀ x ∈ pop,
    bestFitness fit pop ≤ fit x
  | [], x, hx => absurd hx (List.not_mem_nil x)
  | [y], x, hx => by
    obtain rfl := List.mem_singleton.mp hx
    exact le_refl _
  | y :: z :: rest, x, hx => by
    rw [bestFitness, elite]
    rcases List.mem_cons.mp hx with rfl | hmem
    · by_cases h : fit x ≤ fit (elite fit (z :: rest))
      · rw [if_pos h]
      · rw [if_neg h]
        exact le_of_not_le h
    · have hr : bestFitness fit (z :: rest) ≤ fit x := bestFitness_le fit (z :: rest) x hmem
      by_cases h : fit y ≤ fit (elite fit (z :: rest))
      · rw [if_pos h]
        exact le_trans h hr
      · rw [if_neg h]
        exact hr

/-- C6: across a run of the optimizer, the per-generation best fitness is
non-increasing (elitism carries the single best individual forward unchanged,
so the best score never regresses), and the best fitness recorded by the
ConvergenceController is likewise non-increasing from each generation to the
next. -/
theorem elitism_best_monotone (fit : String → ℚ) (initPop : List String)
    (off : ℕ → List String) (th b₀ : ℚ)
    (hth0 : 0 ≤ th) (hb₀ : 0 ≤ b₀) (hfit : ∀ q, 0 ≤ fit q) :
    (∀ n, bestFitness fit (popRun fit initPop off (n + 1)) ≤
        bestFitness fit (popRun fit initPop off n)) ∧
      (∀ n, (convRun th b₀ (fun g => bestFitness fit (popRun fit initPop off g)) (n + 1)).best ≤
        (convRun th b₀ (fun g => bestFitness fit (popRun fit initPop off g)) n).best) := by
  constructor
  · intro n
    have hmem : elite fit (popRun fit initPop off n) ∈ popRun fit initPop off (n + 1) := by
      rw [popRun]
      exact List.mem_cons_self _ _
    exact bestFitness_le fit _ _ hmem
  · intro n
    exact convRun_best_step_le th b₀ _ hth0 hb₀ (fun g => hfit _) n

theorem elitism_best_monotone_witness :
    bestFitness (fun _ => 0) (popRun (fun _ => 0) ["AAA"] (fun _ => []) 1) ≤
        bestFitness (fun _ => 0) (popRun (fun _ => 0) ["AAA"] (fun _ => []) 0) ∧
      (convRun 0 0 (fun g => bestFitness (fun _ => 0) (popRun (fun _ => 0) ["AAA"] (fun _ => []) g)) 1).best ≤
        (convRun 0 0 (fun g => bestFitness (fun _ => 0) (popRun (fun _ => 0) ["AAA"] (fun _ => []) g)) 0).best :=
  ⟨(elitism_best_monotone (fun _ => 0) ["AAA"] (fun _ => []) 0 0 (le_refl 0) (le_refl 0)
      (fun _ => le_refl 0)).1 0,
    (elitism_best_monotone (fun _ => 0) ["AAA"] (fun _ => []) 0 0 (le_refl 0) (le_refl 0)
      (fun _ => le_refl 0)).2 0⟩

/-- Python `str.replace("*", "")` as used by the `aa` command
(`src/freqgen/cli.py`, lines 122 and 146): remove every stop symbol. -/
def removeStops (s : String) : String :=
  ⟨s.data.filter (fun c => c != '*')⟩

/-- The `aa` command in `seq` mode (`src/freqgen/cli.py`, lines 114–122 and
151–153): translate the DNA record, strip every `*` from the translation,
then append one terminal stop marker exactly when the stop-codon option is
set; `none` when the record is not translatable. -/
def aaCommandSeq (dna : String) (stop : Bool) : Option String :=
  (translateStr dna).map (fun t =>
    if stop then removeStops t ++ "*" else removeStops t)

/-- Modelled from the spec (§6 and `amino_acid_seq` of the missing core
module): generate an amino-acid sequence of length `n` whose residues are
drawn from the keys of the pool's 1-mer frequency mapping, the rng picks
threaded explicitly. -/
def amino_acid_seq (n : ℕ) (keys : List Char) (pick : ℕ → ℕ) : String :=
  ⟨(List.range n).map (fun i => keys.getD (pick i % keys.length) 'A')⟩

/-- The keys of a pool's 1-mer frequency mapping: its distinct characters. -/
def kmer1Keys (pool : String) : List Char :=
  pool.data.dedup

/-- The `aa` command in `freq` mode (`src/freqgen/cli.py`, lines 124–153):
pool the per-record amino-acid strings, strip every `*`, generate a fresh
sequence of the requested length from the pool's 1-mer frequencies, and
append one terminal stop marker exactly when the stop-codon option is set. -/
def aaCommandFreq (recs : List String) (n : ℕ) (pick : ℕ → ℕ) (stop : Bool) : String :=
  if stop then amino_acid_seq n (kmer1Keys (removeStops (String.join recs))) pick ++ "*"
  else amino_acid_seq n (kmer1Keys (removeStops (String.join recs))) pick

theorem removeStops_no_star (s : String) : ∀ c ∈ (removeStops s).data, c ≠ '*' := by
  intro c hc
  rw [removeStops] at hc
  have := List.of_mem_filter hc
  simpa using this

theorem amino_acid_seq_no_star (n : ℕ) (keys : List Char) (pick : ℕ → ℕ)
    (hkeys : ∀ c ∈ keys, c ≠ '*') : ∀ c ∈ (amino_acid_seq n keys pick).data, c ≠ '*' := by
  intro c hc
  rw [amino_acid_seq] at hc
  obtain ⟨i, _, rfl⟩ := List.mem_map.mp hc
  rcases Nat.lt_or_ge (pick i % keys.length) keys.length with h | h
  · rw [List.getD_eq_getElem _ _ h]
    exact hkeys _ (List.getElem_mem h)
  · rw [List.getD_eq_default _ _ h]
    decide

theorem star_shape (g : String) (hg : ∀ c ∈ g.data, c ≠ '*') (stop : Bool) :
    ((if stop then g ++ "*" else g) : String).data.count '*' = (if stop then 1 else 0) ∧
      ∀ c ∈ ((if stop then g ++ "*" else g) : String).data.dropLast, c ≠ '*' := by
  have hcount : g.data.count '*' = 0 := by
    rw [List.count_eq_zero]
    intro h
    exact hg '*' h rfl
  cases stop with
  | false =>
    rw [if_neg (by simp), if_neg (by simp)]
    exact ⟨hcount, fun c hc => hg c (List.dropLast_subset _ hc)⟩
  | true =>
    rw [if_pos rfl, if_pos rfl]
    have hdata : (g ++ "*").data = g.data ++ ['*'] := String.data_append g "*"
    constructor
    · rw [hdata, List.count_append, hcount]
      rfl
    · rw [hdata, List.dropLast_concat]
      exact hg

/-- C10: every amino-acid sequence produced by the `aa` command contains no
internal stop symbol: every `*` arising from translation (or present in the
pooled reference set) is removed before output, and exactly one terminal `*`
is appended if and only if the stop-codon option is set, so the output ends
with at most one stop marker. -/
theorem aa_no_internal_stop (dna t : String) (recs : List String) (n : ℕ) (pick : ℕ → ℕ)
    (stop : Bool) (htr : translateStr dna = some t) :
    (∃ o, aaCommandSeq dna stop = some o ∧
      o.data.count '*' = (if stop then 1 else 0) ∧
      ∀ c ∈ o.data.dropLast, c ≠ '*') ∧
    ((aaCommandFreq recs n pick stop).data.count '*' = (if stop then 1 else 0) ∧
      ∀ c ∈ (aaCommandFreq recs n pick stop).data.dropLast, c ≠ '*') := by
  constructor
  · refine ⟨if stop then removeStops t ++ "*" else removeStops t, ?_, ?_⟩
    · rw [aaCommandSeq, htr]
      rfl
    · exact star_shape (removeStops t) (removeStops_no_star t) stop
  · have hkeys : ∀ c ∈ kmer1Keys (removeStops (String.join recs)), c ≠ '*' := by
      intro c hc
      exact removeStops_no_star _ c (List.mem_dedup.mp hc)
    have := star_shape (amino_acid_seq n (kmer1Keys (removeStops (String.join recs))) pick)
      (amino_acid_seq_no_star n _ pick hkeys) stop
    rw [aaCommandFreq]
    cases stop with
    | false =>
      rw [if_neg (by simp)]
      rw [if_neg (by simp), if_neg (by simp)] at this
      exact this
    | true =>
      rw [if_pos rfl]
      rw [if_pos rfl, if_pos rfl] at this
      exact this

theorem aa_no_internal_stop_witness :
    (∃ o, aaCommandSeq "TTTAAATAA" true = some o ∧
      o.data.count '*' = (if true then 1 else 0) ∧
      ∀ c ∈ o.data.dropLast, c ≠ '*') ∧
    ((aaCommandFreq ["FK*"] 2 (fun i => i) true).data.count '*' = (if true then 1 else 0) ∧
      ∀ c ∈ (aaCommandFreq ["FK*"] 2 (fun i => i) true).data.dropLast, c ≠ '*') :=
  aa_no_internal_stop "TTTAAATAA" "FK*" ["FK*"] 2 (fun i => i) true (by decide)

end Freqgen
